import Mathlib

/-!
Verification of the engine-targets core of the oxc transformer
(crates/oxc_transformer/src/options/engine_targets.rs).

The embedding models:
  - `Version` (external browserslist crate; the spec treats it as an ordered
    (major, minor, patch) triple compared lexicographically),
  - the `Engine` enumeration and its strict string parser (`FromStr`),
  - `EngineTargets` (a finite map from `Engine` to `Version`, embedded as a
    function `Engine → Option Version` since `Engine` is a closed enumeration),
  - the operations `is_any_target`, `should_enable`, `has_feature` and
    `parse_versions`.
-/

/-- A version triple. The source uses the external browserslist
`Version(u32, u32, u32)`; per the spec only the total lexicographic order
(most significant component first) matters. -/
structure Version where
  major : Nat
  minor : Nat
  patch : Nat
deriving DecidableEq, Repr

/-- The strict order on versions: component-wise, most significant first
(the derived lexicographic `Ord` of the browserslist triple). -/
def Version.lt (a b : Version) : Bool :=
  decide (a.major < b.major ∨ (a.major = b.major ∧
    (a.minor < b.minor ∨ (a.minor = b.minor ∧ a.patch < b.patch))))

/-- Split a character list into the groups between dots. -/
def splitDots : List Char → List (List Char)
  | [] => [[]]
  | c :: cs =>
    if c = '.' then [] :: splitDots cs
    else
      match splitDots cs with
      | [] => [[c]]
      | g :: gs => (c :: g) :: gs

/-- Parse a non-empty all-digit character group as a number. -/
def parseNatAux : List Char → Nat → Option Nat
  | [], acc => some acc
  | c :: cs, acc =>
    if c.isDigit then parseNatAux cs (acc * 10 + (c.toNat - 48)) else none

def parseNatGroup : List Char → Option Nat
  | [] => none
  | cs => parseNatAux cs 0

def parseComponents : List (List Char) → Option (List Nat)
  | [] => some []
  | g :: gs =>
    match parseNatGroup g, parseComponents gs with
    | some n, some ns => some (n :: ns)
    | _, _ => none

/-- Modelled from the spec: the version-string parser of the external
browserslist crate (`Version::from_str`), not part of this repository.
The spec says a `Version` is "parsed from a version string"; we parse up to
three dot-separated numeric components, absent components defaulting to 0,
and fail on anything else. -/
def Version.fromStr (s : String) : Option Version :=
  match parseComponents (splitDots s.data) with
  | some [a] => some ⟨a, 0, 0⟩
  | some [a, b] => some ⟨a, b, 0⟩
  | some [a, b, c] => some ⟨a, b, c⟩
  | _ => none

/-- The closed enumeration of target engines (`enum Engine`). -/
inductive Engine where
  | Chrome
  | Deno
  | Edge
  | Firefox
  | Hermes
  | Ie
  | Ios
  | Node
  | Opera
  | Rhino
  | Safari
  | Samsung
  | Electron
  | OperaMobile
  | Android
deriving DecidableEq, Repr

/-- The strict engine-name parser (`impl FromStr for Engine`): canonical
names and known aliases map to their engine, anything else fails
(`Err(())`, embedded as `none`). -/
def Engine.fromStr (s : String) : Option Engine :=
  match s with
  | "chrome" | "and_chr" => some .Chrome
  | "deno" => some .Deno
  | "edge" => some .Edge
  | "firefox" | "and_ff" => some .Firefox
  | "hermes" => some .Hermes
  | "ie" | "ie_mob" => some .Ie
  | "ios" | "ios_saf" => some .Ios
  | "node" => some .Node
  | "opera" | "op_mob" => some .Opera
  | "rhino" => some .Rhino
  | "safari" => some .Safari
  | "samsung" => some .Samsung
  | "electron" => some .Electron
  | "opera_mobile" => some .OperaMobile
  | "android" => some .Android
  | _ => none

/-- Every engine, in declaration order; used to iterate over the entries of
an `EngineTargets` map, as the Rust code iterates over its hash map. -/
def Engine.all : List Engine :=
  [.Chrome, .Deno, .Edge, .Firefox, .Hermes, .Ie, .Ios, .Node, .Opera,
   .Rhino, .Safari, .Samsung, .Electron, .OperaMobile, .Android]

/-- `EngineTargets(FxHashMap<Engine, Version>)`: a map of engine names to
minimum supported versions. `Engine` is a closed enumeration, so the hash
map is embedded as a function to `Option Version` (`none` = key absent). -/
def EngineTargets : Type := Engine → Option Version

/-- The empty map (`EngineTargets::default()`). -/
def EngineTargets.default : EngineTargets := fun _ => none

/-- `is_any_target`: true iff the underlying map is empty
(`self.0.is_empty()`). -/
def EngineTargets.is_any_target (self : EngineTargets) : Bool :=
  Engine.all.all fun e => (self e).isNone

/-- `should_enable`: for each `(engine, version)` entry of `engine_targets`,
if `self` also holds the engine with a strictly lower version, return true;
otherwise false. -/
def EngineTargets.should_enable (self engine_targets : EngineTargets) : Bool :=
  Engine.all.any fun engine =>
    match engine_targets engine, self engine with
    | some version, some v => Version.lt v version
    | _, _ => false

/-- The `entry(engine).and_modify(..).or_insert(version)` step of
`parse_versions` at one key: insert when absent, replace only when the new
version is strictly lower. -/
def EngineTargets.mergeVersion : Option Version → Version → Option Version
  | none, version => some version
  | some v, version => some (if Version.lt version v then version else v)

/-- The body of the `parse_versions` loop for one `(engine, version)` string
pair: resolve the engine name (skip on failure), parse the version (skip on
failure), then min-merge into the map at that engine. -/
def EngineTargets.mergeEntry (m : EngineTargets) (p : String × String) : EngineTargets :=
  match Engine.fromStr p.1 with
  | none => m
  | some engine =>
    match Version.fromStr p.2 with
    | none => m
    | some version =>
      fun e => if e = engine then EngineTargets.mergeVersion (m engine) version else m e

/-- `parse_versions`: fold the lenient per-pair merge over the list of raw
`(engine name, version string)` pairs, starting from the empty map. -/
def EngineTargets.parse_versions (versions : List (String × String)) : EngineTargets :=
  versions.foldl EngineTargets.mergeEntry EngineTargets.default

/-- Modelled from the spec: the abstract language-feature enumeration
(`ESFeature` in es_features.rs, not under src/). The spec only says features
form a closed named set; three representative features stand for it. -/
inductive ESFeature where
  | ES2015ArrowFunctions
  | ES2016ExponentiationOperator
  | ES2018AsyncGeneratorFunctions
deriving DecidableEq, Repr

/-- Modelled from the spec: the process-wide read-only feature-requirement
table (`features()` in es_features.rs, not under src/), associating every
feature with the `EngineTargets` at which native support begins. -/
def featuresList : List (ESFeature × EngineTargets) :=
  [(.ES2015ArrowFunctions, fun e => if e = .Chrome then some ⟨45, 0, 0⟩ else none),
   (.ES2016ExponentiationOperator, fun e => if e = .Chrome then some ⟨52, 0, 0⟩ else none),
   (.ES2018AsyncGeneratorFunctions, fun e => if e = .Node then some ⟨10, 0, 0⟩ else none)]

/-- The table lookup `features()[&feature]`: `none` models the panic of a
failed hash-map index. -/
def features (feature : ESFeature) : Option EngineTargets :=
  (featuresList.find? fun p => p.1 = feature).map Prod.snd

/-- `has_feature`: look up the feature's required targets in the static
table and defer to `should_enable`; `none` would mean the lookup panicked. -/
def EngineTargets.has_feature (self : EngineTargets) (feature : ESFeature) : Option Bool :=
  (features feature).map fun required => self.should_enable required

/-- Specification device for the proofs: the versions of the raw pair list
that resolve to a given engine, in order. `parse_versions` stores exactly
the running minimum of this list at each engine. -/
def resolvedVersions (versions : List (String × String)) (e : Engine) : List Version :=
  versions.filterMap fun p =>
    match Engine.fromStr p.1, Version.fromStr p.2 with
    | some engine, some version => if engine = e then some version else none
    | _, _ => none

theorem Engine.mem_all (e : Engine) : e ∈ Engine.all := by
  cases e <;> simp [Engine.all]

theorem Version.lt_iff (a b : Version) : Version.lt a b = true ↔
    (a.major < b.major ∨ (a.major = b.major ∧
      (a.minor < b.minor ∨ (a.minor = b.minor ∧ a.patch < b.patch)))) := by
  simp [Version.lt]

theorem Version.ext_iff (a b : Version) :
    a = b ↔ a.major = b.major ∧ a.minor = b.minor ∧ a.patch = b.patch := by
  cases a; cases b; simp [Version.mk.injEq]

theorem Version.lt_false_trans {a b c : Version}
    (hab : Version.lt b a = false) (hbc : Version.lt c b = false) :
    Version.lt c a = false := by
  rw [← Bool.not_eq_true, Version.lt_iff] at *
  omega

theorem Version.lt_irrefl (a : Version) : Version.lt a a = false := by
  rw [← Bool.not_eq_true, Version.lt_iff]
  omega

instance : RightCommutative EngineTargets.mergeVersion := by
  constructor
  intro m a b
  cases m <;> simp only [EngineTargets.mergeVersion] <;>
    split_ifs <;>
    simp_all [Version.lt_iff, Version.ext_iff] <;>
    omega

theorem resolvedVersions_cons (p : String × String) (L : List (String × String)) (e : Engine) :
    resolvedVersions (p :: L) e =
      (match Engine.fromStr p.1, Version.fromStr p.2 with
       | some engine, some version =>
           if engine = e then version :: resolvedVersions L e else resolvedVersions L e
       | _, _ => resolvedVersions L e) := by
  unfold resolvedVersions
  rw [List.filterMap_cons]
  cases hE : Engine.fromStr p.1 with
  | none => simp
  | some engine =>
    cases hV : Version.fromStr p.2 with
    | none => simp
    | some version =>
      by_cases he : engine = e <;> simp [he]

theorem foldl_mergeEntry_apply (L : List (String × String)) (m : EngineTargets) (e : Engine) :
    (L.foldl EngineTargets.mergeEntry m) e =
    (resolvedVersions L e).foldl EngineTargets.mergeVersion (m e) := by
  induction L generalizing m with
  | nil => rfl
  | cons p L ih =>
    rw [List.foldl_cons, ih, resolvedVersions_cons]
    have hm : ∀ e', EngineTargets.mergeEntry m p e' =
        (match Engine.fromStr p.1, Version.fromStr p.2 with
         | some engine, some version =>
             if e' = engine then EngineTargets.mergeVersion (m engine) version else m e'
         | _, _ => m e') := by
      intro e'
      unfold EngineTargets.mergeEntry
      cases Engine.fromStr p.1 <;> [rfl; (cases Version.fromStr p.2 <;> rfl)]
    rw [hm]
    cases hE : Engine.fromStr p.1 with
    | none => rfl
    | some engine =>
      cases hV : Version.fromStr p.2 with
      | none => rfl
      | some version =>
        by_cases he : engine = e
        · subst he; simp
        · dsimp only
          rw [if_neg (fun h => he h.symm), if_neg he]

theorem Version.lt_eq_false_iff (a b : Version) : Version.lt a b = false ↔
    ¬(a.major < b.major ∨ (a.major = b.major ∧
      (a.minor < b.minor ∨ (a.minor = b.minor ∧ a.patch < b.patch)))) := by
  rw [Bool.eq_false_iff]
  simp [Version.lt]

theorem foldl_mergeVersion_spec (l : List Version) (v : Version) :
    ∃ w, l.foldl EngineTargets.mergeVersion (some v) = some w ∧
      Version.lt v w = false ∧ ∀ x ∈ l, Version.lt x w = false := by
  induction l generalizing v with
  | nil => exact ⟨v, rfl, Version.lt_irrefl v, by simp⟩
  | cons x l ih =>
    obtain ⟨w, hw, hvw, hall⟩ := ih (if Version.lt x v then x else v)
    have hmin_v : Version.lt v (if Version.lt x v then x else v) = false := by
      cases hx : Version.lt x v with
      | true =>
        rw [if_pos rfl, Version.lt_eq_false_iff]
        rw [Version.lt_iff] at hx
        omega
      | false => rw [if_neg Bool.false_ne_true, Version.lt_irrefl]
    have hmin_x : Version.lt x (if Version.lt x v then x else v) = false := by
      cases hx : Version.lt x v with
      | true => rw [if_pos rfl, Version.lt_irrefl]
      | false =>
        rw [if_neg Bool.false_ne_true]
        exact hx
    refine ⟨w, ?_, Version.lt_false_trans hvw hmin_v, ?_⟩
    · rw [List.foldl_cons]
      simpa only [EngineTargets.mergeVersion] using hw
    · intro y hy
      rcases List.mem_cons.mp hy with rfl | hy
      · exact Version.lt_false_trans hvw hmin_x
      · exact hall y hy

theorem foldl_mergeVersion_none_spec (l : List Version) :
    l.foldl EngineTargets.mergeVersion none = none ∧ l = [] ∨
    ∃ w, l.foldl EngineTargets.mergeVersion none = some w ∧
      ∀ x ∈ l, Version.lt x w = false := by
  cases l with
  | nil => exact Or.inl ⟨rfl, rfl⟩
  | cons x xs =>
    obtain ⟨w, hw, hxw, hall⟩ := foldl_mergeVersion_spec xs x
    refine Or.inr ⟨w, ?_, ?_⟩
    · rw [List.foldl_cons]
      exact hw
    · intro y hy
      rcases List.mem_cons.mp hy with rfl | hy
      · exact hxw
      · exact hall y hy

theorem foldl_mergeVersion_absorb (l : List Version) (w : Version)
    (h : ∀ x ∈ l, Version.lt x w = false) :
    l.foldl EngineTargets.mergeVersion (some w) = some w := by
  induction l with
  | nil => rfl
  | cons x xs ih =>
    have hx : Version.lt x w = false := h x (List.mem_cons_self x xs)
    rw [List.foldl_cons]
    have hstep : EngineTargets.mergeVersion (some w) x = some w := by
      simp only [EngineTargets.mergeVersion]
      rw [if_neg (by simp [hx])]
    rw [hstep]
    exact ih fun y hy => h y (List.mem_cons_of_mem x hy)

theorem parse_versions_apply (L : List (String × String)) (e : Engine) :
    EngineTargets.parse_versions L e =
      (resolvedVersions L e).foldl EngineTargets.mergeVersion none :=
  foldl_mergeEntry_apply L EngineTargets.default e

/-- C1: `should_enable(self, required)` is true iff some engine present in
both maps has a strictly lower version in `self` than in `required`;
engines absent from `self` impose no constraint and an empty `self` yields
false (both are consequences of the right-hand side being unsatisfiable). -/
theorem should_enable_iff (self required : EngineTargets) :
    self.should_enable required = true ↔
      ∃ engine vs vr, self engine = some vs ∧ required engine = some vr ∧
        Version.lt vs vr = true := by
  unfold EngineTargets.should_enable
  rw [List.any_eq_true]
  constructor
  · rintro ⟨e, -, he⟩
    cases hr : required e with
    | none =>
      rw [hr] at he
      exact Bool.noConfusion he
    | some vr =>
      cases hs : self e with
      | none =>
        rw [hr, hs] at he
        exact Bool.noConfusion he
      | some vs =>
        rw [hr, hs] at he
        exact ⟨e, vs, vr, hs, hr, he⟩
  · rintro ⟨e, vs, vr, hs, hr, hlt⟩
    refine ⟨e, Engine.mem_all e, ?_⟩
    rw [hr, hs]
    exact hlt

/-- C2: the `parse_versions` merge at a resolved pair inserts the version
when the engine is absent and replaces the stored version only when the new
one is strictly lower; concretely, two chrome entries keep the lower one. -/
theorem parse_versions_min_merge (L : List (String × String)) (n s : String)
    (engine : Engine) (version : Version)
    (hn : Engine.fromStr n = some engine) (hs : Version.fromStr s = some version) :
    (EngineTargets.parse_versions L engine = none →
       EngineTargets.parse_versions (L ++ [(n, s)]) engine = some version) ∧
    (∀ v, EngineTargets.parse_versions L engine = some v →
       EngineTargets.parse_versions (L ++ [(n, s)]) engine =
         some (if Version.lt version v then version else v)) ∧
    EngineTargets.parse_versions [("chrome", "90.0.0"), ("chrome", "80.0.0")] =
      fun e => if e = Engine.Chrome then some ⟨80, 0, 0⟩ else none := by
  have happ : EngineTargets.parse_versions (L ++ [(n, s)]) engine =
      EngineTargets.mergeVersion (EngineTargets.parse_versions L engine) version := by
    unfold EngineTargets.parse_versions
    rw [List.foldl_append, List.foldl_cons, List.foldl_nil]
    unfold EngineTargets.mergeEntry
    dsimp only
    rw [hn]
    dsimp only
    rw [hs]
    dsimp only
    rw [if_pos rfl]
  refine ⟨fun h0 => ?_, fun v hv => ?_, ?_⟩
  · rw [happ, h0]
    rfl
  · rw [happ, hv]
    rfl
  · funext e
    cases e <;> rfl

theorem parse_versions_min_merge_witness :
    EngineTargets.parse_versions ([("node", "90.0.0")] ++ [("node", "18.0.0")]) Engine.Node =
      some (if Version.lt ⟨18, 0, 0⟩ ⟨90, 0, 0⟩ then (⟨18, 0, 0⟩ : Version) else ⟨90, 0, 0⟩) :=
  (parse_versions_min_merge [("node", "90.0.0")] "node" "18.0.0" Engine.Node
    ⟨18, 0, 0⟩ rfl rfl).2.1 ⟨90, 0, 0⟩ rfl

/-- C3: `parse_versions` never fails: a pair whose name does not resolve or
whose version does not parse is dropped and processing continues, and the
bogus/node example yields exactly the Node entry. -/
theorem parse_versions_never_fails (pre post : List (String × String)) (n s : String)
    (h : Engine.fromStr n = none ∨ Version.fromStr s = none) :
    EngineTargets.parse_versions (pre ++ (n, s) :: post) =
      EngineTargets.parse_versions (pre ++ post) ∧
    EngineTargets.parse_versions [("bogus", "1.0.0"), ("node", "18.0.0")] =
      fun e => if e = Engine.Node then some ⟨18, 0, 0⟩ else none := by
  constructor
  · have hid : EngineTargets.mergeEntry
        (pre.foldl EngineTargets.mergeEntry EngineTargets.default) (n, s) =
        pre.foldl EngineTargets.mergeEntry EngineTargets.default := by
      unfold EngineTargets.mergeEntry
      dsimp only
      rcases h with h | h
      · rw [h]
      · cases hE : Engine.fromStr n with
        | none => rfl
        | some engine =>
          rw [h]
    unfold EngineTargets.parse_versions
    rw [List.foldl_append, List.foldl_cons, List.foldl_append, hid]
  · funext e
    cases e <;> rfl

theorem parse_versions_never_fails_witness :
    EngineTargets.parse_versions ([] ++ ("bogus", "1.0.0") :: []) =
      EngineTargets.parse_versions ([] ++ []) :=
  (parse_versions_never_fails [] [] "bogus" "1.0.0" (Or.inl rfl)).1

/-- C4: `has_feature` is infallible at call time: for every targets value
and every feature, the table lookup succeeds, so the result is `some`
boolean (it is a pure function, so it has no side effects). -/
theorem has_feature_infallible (self : EngineTargets) (feature : ESFeature) :
    (self.has_feature feature).isSome = true := by
  cases feature <;> rfl

/-- C5: the engine-name parser maps each known alias to its canonical
engine and fails on an unrecognized string. -/
theorem engine_alias_resolution :
    Engine.fromStr "and_chr" = some Engine.Chrome ∧
    Engine.fromStr "ie_mob" = some Engine.Ie ∧
    Engine.fromStr "ios_saf" = some Engine.Ios ∧
    Engine.fromStr "op_mob" = some Engine.Opera ∧
    Engine.fromStr "and_ff" = some Engine.Firefox ∧
    Engine.fromStr "bogus" = none :=
  ⟨rfl, rfl, rfl, rfl, rfl, rfl⟩

/-- C6: `is_any_target` is true iff the map is empty; in particular
`parse_versions []` is an any-target value, and by the iff any map with at
least one entry is not. -/
theorem is_any_target_iff_empty (self : EngineTargets) :
    (self.is_any_target = true ↔ ∀ e, self e = none) ∧
    (EngineTargets.parse_versions []).is_any_target = true := by
  refine ⟨?_, rfl⟩
  unfold EngineTargets.is_any_target
  rw [List.all_eq_true]
  constructor
  · intro h e
    simpa [Option.isNone_iff_eq_none] using h e (Engine.mem_all e)
  · intro h e _
    simp [h e]

/-- C7: for every feature whose requirement is present in the table,
`has_feature` returns exactly `should_enable` of that requirement. -/
theorem has_feature_consistency (self : EngineTargets) (feature : ESFeature)
    (required : EngineTargets) (h : features feature = some required) :
    self.has_feature feature = some (self.should_enable required) := by
  unfold EngineTargets.has_feature
  rw [h]
  rfl

theorem has_feature_consistency_witness :
    EngineTargets.default.has_feature ESFeature.ES2015ArrowFunctions =
      some (EngineTargets.default.should_enable
        (fun e => if e = Engine.Chrome then some ⟨45, 0, 0⟩ else none)) :=
  has_feature_consistency EngineTargets.default ESFeature.ES2015ArrowFunctions _ rfl

/-- C8: the pair merge is idempotent: folding the pairs of a list into the
map that already holds their minima changes nothing, equivalently
`parse_versions (L ++ L) = parse_versions L`. -/
theorem parse_versions_idempotent (L : List (String × String)) :
    L.foldl EngineTargets.mergeEntry (EngineTargets.parse_versions L) =
      EngineTargets.parse_versions L ∧
    EngineTargets.parse_versions (L ++ L) = EngineTargets.parse_versions L := by
  have key : L.foldl EngineTargets.mergeEntry (EngineTargets.parse_versions L) =
      EngineTargets.parse_versions L := by
    funext e
    rw [foldl_mergeEntry_apply L (EngineTargets.parse_versions L) e,
      parse_versions_apply L e]
    rcases foldl_mergeVersion_none_spec (resolvedVersions L e) with ⟨hn, hl⟩ | ⟨w, hw, hall⟩
    · rw [hl]
      rfl
    · rw [hw]
      exact foldl_mergeVersion_absorb _ w hall
  refine ⟨key, ?_⟩
  unfold EngineTargets.parse_versions at key ⊢
  rw [List.foldl_append]
  exact key

/-- C9: `parse_versions` is order-insensitive: permuting the input pair
list does not change the resulting map, because each stored value is the
minimum over all resolved versions for that engine. -/
theorem parse_versions_order_insensitive (L1 L2 : List (String × String))
    (h : L1.Perm L2) :
    EngineTargets.parse_versions L1 = EngineTargets.parse_versions L2 := by
  funext e
  rw [parse_versions_apply L1 e, parse_versions_apply L2 e]
  exact (h.filterMap _).foldl_eq none

theorem parse_versions_order_insensitive_witness :
    EngineTargets.parse_versions [("node", "18.0.0"), ("chrome", "90.0.0")] =
      EngineTargets.parse_versions [("chrome", "90.0.0"), ("node", "18.0.0")] :=
  parse_versions_order_insensitive _ _ (List.Perm.swap _ _ _)

/-- C10: a feature whose requirement map is empty never forces a
transform: `should_enable` returns false whenever `required` is empty,
regardless of `self`. -/
theorem should_enable_empty_required (self required : EngineTargets)
    (h : ∀ e, required e = none) :
    self.should_enable required = false := by
  unfold EngineTargets.should_enable
  rw [Bool.eq_false_iff]
  intro hc
  rw [List.any_eq_true] at hc
  obtain ⟨x, -, hx⟩ := hc
  rw [h x] at hx
  exact Bool.noConfusion hx

theorem should_enable_empty_required_witness :
    EngineTargets.should_enable
      (fun e => if e = Engine.Chrome then some ⟨90, 0, 0⟩ else none)
      EngineTargets.default = false :=
  should_enable_empty_required _ EngineTargets.default (fun _ => rfl)
